import Mathlib

set_option maxRecDepth 8000

/-!
Verification development for the zpp byte allocator (zpp_allocator.h).

The allocator manages a caller-supplied byte region through an intrusive
doubly linked block list interleaved with a free sublist.  We model the
region memory as an association list from header addresses to header
records (a shallow embedding of struct node: the block-list links, the
stored size word whose low bit is the state flag, and the two free-list
links that live in the payload of a free block).  Every operation below is
a statement-by-statement translation of the corresponding member function
of zpp::allocator, with size_t arithmetic taken modulo 2 ^ 64 and the
LP64 layout constants sizeof(node::header) = 32, sizeof(node) = 48 and
alignof(node) = 16.
-/

namespace ZppAllocator

/-- Word size of size_t on the LP64 targets the header is written for. -/
def W : Nat := 2 ^ 64

/-- Layout constant sizeof(node::header): two pointers and a size_t padded
to alignof(std::max_align_t) = 16. -/
def headerSize : Nat := 32

/-- Layout constant sizeof(node): the header plus the two free-list
pointers. -/
def nodeSize : Nat := 48

/-- Wrapping size_t addition. -/
def add64 (a b : Nat) : Nat := (a + b) % W

/-- Wrapping size_t subtraction. -/
def sub64 (a b : Nat) : Nat := (a + (W - b % W)) % W

/-- node::alignment(size): ((size + alignof(node) - 1) / alignof(node) *
alignof(node)) - size in size_t arithmetic, with alignof(node) = 16. -/
def alignment (size : Nat) : Nat := sub64 (add64 size 15 / 16 * 16) size

/-- One node record: the header fields m_next, m_prev, m_size and the two
free-list pointers m_next_free, m_prev_free stored in the payload. -/
structure Node where
  next : Option Nat
  prev : Option Nat
  msize : Nat
  nextFree : Option Nat
  prevFree : Option Nat
deriving DecidableEq, Repr

/-- header::size(): the stored size with the state bit masked off. -/
def Node.size (n : Node) : Nat := n.msize - n.msize % 2

/-- header::is_free(): the low bit of the stored size is clear. -/
def Node.isFree (n : Node) : Bool := n.msize % 2 == 0

/-- Region memory: a map from header addresses to node records, newest
write first. -/
abbrev Mem := List (Nat × Node)

def emptyNode : Node := ⟨none, none, 0, none, none⟩

/-- Read the node record stored at an address. -/
def getN (m : Mem) (a : Nat) : Node := (List.lookup a m).getD emptyNode

/-- Store a node record at an address. -/
def setN (m : Mem) (a : Nat) (n : Node) : Mem := (a, n) :: m

/-- Read-modify-write of the record at an address. -/
def upd (m : Mem) (a : Nat) (f : Node → Node) : Mem := setN m a (f (getN m a))

/-- node::set_free(): m_size &= ~1. -/
def set_free (m : Mem) (a : Nat) : Mem :=
  upd m a fun n => { n with msize := n.msize - n.msize % 2 }

/-- node::set_allocated(): m_size |= 1. -/
def set_allocated (m : Mem) (a : Nat) : Mem :=
  upd m a fun n => { n with msize := n.msize - n.msize % 2 + 1 }

/-- node::unlink_from_list(). -/
def unlink_from_list (m : Mem) (a : Nat) : Mem :=
  let m1 := match (getN m a).prev with
    | some q => upd m q fun r => { r with next := (getN m a).next }
    | none => m
  match (getN m1 a).next with
  | some q => upd m1 q fun r => { r with prev := (getN m1 a).prev }
  | none => m1

/-- node::unlink_from_freelist(): bypass the node in the free sublist and
mark it allocated. -/
def unlink_from_freelist (m : Mem) (a : Nat) : Mem :=
  let m1 := match (getN m a).prevFree with
    | some q => upd m q fun r => { r with nextFree := (getN m a).nextFree }
    | none => m
  let m2 := match (getN m1 a).nextFree with
    | some q => upd m1 q fun r => { r with prevFree := (getN m1 a).prevFree }
    | none => m1
  set_allocated m2 a

/-- node::merge_next(): absorb the next free node (m_next_free, assumed
non-null by the caller), unlink it from the free sublist, then unlink the
block-list successor m_next from the block list. -/
def merge_next (m : Mem) (a : Nat) : Mem :=
  let q := ((getN m a).nextFree).getD 0
  let m1 := upd m a fun r => { r with msize := add64 r.msize (getN m q).msize }
  let m2 := unlink_from_freelist m1 q
  match (getN m2 a).next with
  | some r => unlink_from_list m2 r
  | none => m2

/-- node::merge(): coalesce forward with m_next_free when address-adjacent
by the raw stored size, then coalesce the previous free node into this one
when it is address-adjacent. -/
def merge (m : Mem) (a : Nat) : Mem :=
  let m1 :=
    match (getN m a).nextFree with
    | some q => if a + (getN m a).msize = q then merge_next m a else m
    | none => m
  match (getN m1 a).prevFree with
  | some q => if q + (getN m1 q).msize = a then merge_next m1 q else m1
  | none => m1

/-- node::append_to_list(p): insert p right after this node in the block
list. -/
def append_to_list (m : Mem) (self p : Nat) : Mem :=
  let m1 := match (getN m self).next with
    | some q => upd m q fun r => { r with prev := some p }
    | none => m
  let m2 := upd m1 p fun r => { r with next := (getN m1 self).next }
  let m3 := upd m2 p fun r => { r with prev := some self }
  upd m3 self fun r => { r with next := some p }

/-- node::append_to_freelist(p): insert p right after this node in the
free sublist, mark it free and coalesce. -/
def append_to_freelist (m : Mem) (self p : Nat) : Mem :=
  let m1 := match (getN m self).nextFree with
    | some q => upd m q fun r => { r with prevFree := some p }
    | none => m
  let m2 := upd m1 p fun r => { r with nextFree := (getN m1 self).nextFree }
  let m3 := upd m2 p fun r => { r with prevFree := some self }
  let m4 := upd m3 self fun r => { r with nextFree := some p }
  let m5 := set_free m4 p
  merge m5 p

/-- node::prepend_to_freelist(p): insert p right before this node in the
free sublist, mark it free and coalesce. -/
def prepend_to_freelist (m : Mem) (self p : Nat) : Mem :=
  let m1 := match (getN m self).prevFree with
    | some q => upd m q fun r => { r with nextFree := some p }
    | none => m
  let m2 := upd m1 p fun r => { r with prevFree := (getN m1 self).prevFree }
  let m3 := upd m2 p fun r => { r with nextFree := some self }
  let m4 := upd m3 self fun r => { r with prevFree := some p }
  let m5 := set_free m4 p
  merge m5 p

/-- node::split(size): placement-new a tail node of the leftover size at
address() + size, link it into both lists, then shrink this node. -/
def split (m : Mem) (a size : Nat) : Mem :=
  let tail := a + size
  let m1 := setN m tail ⟨none, none, sub64 (getN m a).msize size, none, none⟩
  let m2 := append_to_list m1 a tail
  let m3 := append_to_freelist m2 a tail
  upd m3 a fun r => { r with msize := size }

/-- State of zpp::allocator.list: the region memory plus m_first_free,
m_first and m_allocated. -/
structure St where
  mem : Mem
  first_free : Option Nat
  first : Option Nat
  allocated : Nat
deriving DecidableEq, Repr

/-- The block size list::allocate computes for a request: the request plus
sizeof(node::header), rounded up to alignof(node), all in size_t
arithmetic. -/
def computeNeed (sz : Nat) : Nat :=
  let s1 := add64 sz headerSize
  add64 s1 (alignment s1)

/-- Body of the list::allocate loop once a fitting free node p is found:
split on leftover, unlink from the free sublist, maybe advance
m_first_free, and count the allocation. -/
def alloc_found (st : St) (p need : Nat) : Nat × St :=
  let m1 := if nodeSize ≤ sub64 (getN st.mem p).size need then split st.mem p need
            else st.mem
  let m2 := unlink_from_freelist m1 p
  let ff := if st.first_free = some p then (getN m2 p).nextFree else st.first_free
  let al := add64 st.allocated (getN m2 p).size
  (p, { st with mem := m2, first_free := ff, allocated := al })

/-- The first-fit walk of list::allocate along the free sublist, with
explicit fuel bounding the number of iterations. -/
def alloc_loop (st : St) (need : Nat) : Nat → Option Nat → Option Nat × St
  | _, none => (none, st)
  | 0, some _ => (none, st)
  | fuel + 1, some p =>
    if (getN st.mem p).size < need then
      alloc_loop st need fuel (getN st.mem p).nextFree
    else
      (some (alloc_found st p need).1, (alloc_found st p need).2)

/-- list::allocate(size): returns the header address of the allocated
block, or none when no free block fits. -/
def list_allocate (fuel : Nat) (st : St) (sz : Nat) : Option Nat × St :=
  alloc_loop st (computeNeed sz) fuel st.first_free

/-- The backward scan of list::deallocate along block-list predecessors
for the nearest node whose state bit says free. -/
def dealloc_scan (m : Mem) : Nat → Option Nat → Option Nat
  | _, none => none
  | 0, some _ => none
  | fuel + 1, some p =>
    if (getN m p).isFree then some p else dealloc_scan m fuel (getN m p).prev

/-- list::deallocate(h): recreate the node from the header (the free-list
pointers are value-initialized to null), count the deallocation, then
insert into the free sublist after the nearest preceding free node, or
prepend to m_first_free, or install the node as m_first_free when the free
sublist is empty. -/
def list_deallocate (fuel : Nat) (st : St) (h : Nat) : St :=
  let n0 := getN st.mem h
  let m1 := setN st.mem h ⟨n0.next, n0.prev, n0.msize, none, none⟩
  let al := sub64 st.allocated (getN m1 h).size
  match dealloc_scan m1 fuel (getN m1 h).prev with
  | some p =>
    { st with mem := append_to_freelist m1 p h, allocated := al }
  | none =>
    match st.first_free with
    | some f =>
      { st with mem := prepend_to_freelist m1 f h, first_free := some h,
                allocated := al }
    | none =>
      { st with mem := upd m1 h fun r => { r with nextFree := none, prevFree := none },
                first_free := some h, allocated := al }

/-- The list constructor inside allocator(memory, size): one node covering
the adjusted region, sole member of both lists. -/
def init_allocator (base size : Nat) : St :=
  let pad := alignment base
  { mem := [(base + pad, ⟨none, none, sub64 size pad, none, none⟩)],
    first_free := some (base + pad), first := some (base + pad), allocated := 0 }

/-- allocator::allocate(size): the payload address header->data() is the
header address plus sizeof(node::header). -/
def allocator_allocate (fuel : Nat) (st : St) (sz : Nat) : Option Nat × St :=
  match list_allocate fuel st sz with
  | (none, st1) => (none, st1)
  | (some h, st1) => (some (h + headerSize), st1)

/-- allocator::deallocate(pointer, size): null is a no-op, otherwise the
header is recovered by subtracting sizeof(node::header). -/
def allocator_deallocate (fuel : Nat) (st : St) (ptr : Option Nat) : St :=
  match ptr with
  | none => st
  | some a => list_deallocate fuel st (a - headerSize)

/-- allocator::allocation_size(pointer): header::data_size(), the masked
size minus sizeof(node::header), in size_t arithmetic. -/
def allocation_size (m : Mem) (ptr : Nat) : Nat :=
  sub64 (getN m (ptr - headerSize)).size headerSize

/-- The outer allocator object: the adjusted region m_memory together with
the list state. -/
structure ByteAllocator where
  base : Nat
  msize : Nat
  st : St
deriving DecidableEq, Repr

/-- allocator(memory, size): bump the base by node::alignment(memory) and
shrink the length accordingly. -/
def mk_allocator (memory size : Nat) : ByteAllocator :=
  { base := memory + alignment memory,
    msize := sub64 size (alignment memory),
    st := init_allocator memory size }

/-- allocator::contains(address): front() is the first byte of the
adjusted region and back() dereferences one past the last byte, so the
test is base <= address < base + size. -/
def contains (al : ByteAllocator) (a : Nat) : Bool :=
  decide (al.base ≤ a) && decide (a < al.base + al.msize)

/-!
Abstract view of a well-formed allocator state.  A state is described by
the list of its blocks in address order; Inv collects the invariants
T1 to T7 of the specification: the links of both intrusive lists, the
size-with-state-bit encoding, exact tiling of the region, block alignment,
no two adjacent free blocks, the free-list head, and the live-byte
counter.
-/

/-- One block of the abstract view: its header address, its true size and
whether it is free. -/
structure Block where
  addr : Nat
  bsize : Nat
  bfree : Bool
deriving DecidableEq, Repr

/-- Addresses of the free blocks, in address order. -/
def freeAddrs (bs : List Block) : List Nat :=
  (bs.filter fun b => b.bfree).map fun b => b.addr

/-- Successor of an element inside a duplicate-free list. -/
def next_in : List Nat → Nat → Option Nat
  | [], _ => none
  | [_], _ => none
  | x :: y :: t, a => if x = a then some y else next_in (y :: t) a

/-- Predecessor of an element inside a duplicate-free list. -/
def prev_in : List Nat → Nat → Option Nat
  | [], _ => none
  | [_], _ => none
  | x :: y :: t, a => if y = a then some x else prev_in (y :: t) a

/-- The record stored at the address of block b has the expected link
fields: block-list neighbours pa and na, the size word encoding the state
bit, and, when the block is free, free-sublist links to the neighbouring
free blocks. -/
def node_ok (m : Mem) (fs : List Nat) (pa : Option Nat) (b : Block)
    (na : Option Nat) : Bool :=
  let n := getN m b.addr
  n.next == na && n.prev == pa &&
    n.msize == b.bsize + (if b.bfree then 0 else 1) &&
    (!b.bfree || (n.nextFree == next_in fs b.addr && n.prevFree == prev_in fs b.addr))

/-- All blocks have correct records, threading the predecessor address. -/
def blocks_ok (m : Mem) (fs : List Nat) : Option Nat → List Block → Bool
  | _, [] => true
  | pa, b :: r => node_ok m fs pa b ((r.head?).map fun x => x.addr) &&
      blocks_ok m fs (some b.addr) r

/-- T1: the blocks tile the region, each block starting where the
previous one ends. -/
def tiling_ok : Nat → List Block → Bool
  | _, [] => true
  | base, b :: r => b.addr == base && tiling_ok (b.addr + b.bsize) r

/-- Block sizes are positive multiples of the alignment, block addresses
are aligned, and sizes are representable in size_t. -/
def sizes_ok (bs : List Block) : Bool :=
  bs.all fun b =>
    decide (0 < b.bsize) && (b.bsize % 16 == 0) && (b.addr % 16 == 0) &&
      decide (b.bsize < W)

/-- T4: no two address-adjacent blocks are both free. -/
def no_adj_free : List Block → Bool
  | b :: b2 :: t => !(b.bfree && b2.bfree) && no_adj_free (b2 :: t)
  | _ => true

/-- T6: sum of the true sizes of the allocated blocks. -/
def alloc_sum (bs : List Block) : Nat :=
  (bs.filter fun b => !b.bfree).foldr (fun b acc => b.bsize + acc) 0

/-- The state invariants T1 to T7 relative to an abstract block list. -/
def Inv (st : St) (base : Nat) (bs : List Block) : Bool :=
  let fs := freeAddrs bs
  blocks_ok st.mem fs none bs && tiling_ok base bs && sizes_ok bs &&
    no_adj_free bs && (st.first_free == fs.head?) &&
    (st.first == (bs.head?).map fun b => b.addr) &&
    (st.allocated == alloc_sum bs)

/-- First-fit over the abstract block list: the address of the first free
block whose size reaches the need. -/
def first_fit (need : Nat) : List Block → Option Nat
  | [] => none
  | b :: r => if b.bfree && decide (need ≤ b.bsize) then some b.addr
              else first_fit need r

/-- First fit along a list of free-node addresses, reading sizes from
memory. -/
def find_fit (m : Mem) (need : Nat) : List Nat → Option Nat
  | [] => none
  | a :: r => if (getN m a).size < need then find_fit m need r else some a

/-- The free-list pointers in memory thread exactly through the given
address list, starting from the given cursor. -/
def free_chain (m : Mem) : Option Nat → List Nat → Bool
  | cur, [] => cur == none
  | cur, a :: r => cur == some a && free_chain m (getN m a).nextFree r

/-- Rounding a size up to the block alignment, written as the
specification states it, in unbounded arithmetic. -/
def spec_round_up_to_A (n : Nat) : Nat := (n + 15) / 16 * 16

/-! Basic lemmas about the memory model. -/

@[simp]
lemma getN_setN_same (m : Mem) (a : Nat) (n : Node) : getN (setN m a n) a = n := by
  simp [getN, setN, List.lookup]

lemma getN_setN_ne {m : Mem} {a b : Nat} {n : Node} (h : b ≠ a) :
    getN (setN m a n) b = getN m b := by
  have hb : (b == a) = false := by simpa using h
  simp [getN, setN, List.lookup, hb]

@[simp]
lemma getN_upd_same (m : Mem) (a : Nat) (f : Node → Node) :
    getN (upd m a f) a = f (getN m a) := by
  simp [upd]

lemma getN_upd_ne {m : Mem} {a b : Nat} {f : Node → Node} (h : b ≠ a) :
    getN (upd m a f) b = getN m b := by
  simp [upd, getN_setN_ne h]

/-! Arithmetic facts about the wrapping size_t operations. -/

lemma w_pos : 0 < W := by decide

lemma sub64_eq_of_le {a b : Nat} (h : b ≤ a) (ha : a < W) : sub64 a b = a - b := by
  rw [sub64]
  have hb : b % W = b := Nat.mod_eq_of_lt (lt_of_le_of_lt h ha)
  rw [hb]
  have h2 : a + (W - b) = W + (a - b) := by
    have : b ≤ W := le_of_lt (lt_of_le_of_lt h ha)
    omega
  rw [h2, Nat.add_mod_left]
  exact Nat.mod_eq_of_lt (by omega)

/-! Extraction lemmas for the invariant. -/

lemma blocks_ok_msize {m : Mem} {fs : List Nat} :
    ∀ {pa : Option Nat} {bs : List Block}, blocks_ok m fs pa bs = true →
      ∀ b ∈ bs, (getN m b.addr).msize = b.bsize + (if b.bfree then 0 else 1) := by
  intro pa bs
  induction bs generalizing pa with
  | nil => intro _ b hb; cases hb
  | cons x t ih =>
    intro h b hb
    rw [blocks_ok, Bool.and_eq_true] at h
    rcases List.mem_cons.mp hb with hb | hb
    · subst hb
      have h1 := h.1
      simp only [node_ok, Bool.and_eq_true, beq_iff_eq] at h1
      exact h1.1.2
    · exact ih h.2 b hb

lemma sizes_ok_mem {bs : List Block} (h : sizes_ok bs = true) {b : Block}
    (hb : b ∈ bs) :
    0 < b.bsize ∧ b.bsize % 16 = 0 ∧ b.addr % 16 = 0 ∧ b.bsize < W := by
  rw [sizes_ok, List.all_eq_true] at h
  have := h b hb
  simp only [Bool.and_eq_true, decide_eq_true_eq, beq_iff_eq] at this
  exact ⟨this.1.1.1, this.1.1.2, this.1.2, this.2⟩

/-- In a state satisfying the invariants, the head of the free sublist is
a block whose state bit says free. -/
lemma inv_first_free_isFree {st : St} {base : Nat} {bs : List Block} {a : Nat}
    (hInv : Inv st base bs = true) (ha : st.first_free = some a) :
    (getN st.mem a).isFree = true := by
  simp only [Inv, Bool.and_eq_true, beq_iff_eq] at hInv
  obtain ⟨⟨⟨⟨⟨⟨hblocks, _⟩, hsizes⟩, _⟩, hff⟩, _⟩, _⟩ := hInv
  rw [ha] at hff
  obtain ⟨b, hbf, hbaddr⟩ : ∃ b, (bs.filter fun x => x.bfree).head? = some b ∧
      b.addr = a := by
    cases hf : bs.filter fun x => x.bfree with
    | nil => rw [freeAddrs, hf] at hff; simp at hff
    | cons y t =>
      rw [freeAddrs, hf] at hff
      simp only [List.map_cons, List.head?_cons, Option.some.injEq] at hff
      exact ⟨y, rfl, hff.symm⟩
  have hbmem : b ∈ bs.filter fun x => x.bfree := List.mem_of_mem_head? hbf
  have hbbs : b ∈ bs ∧ b.bfree = true := by
    have := List.mem_filter.mp hbmem
    simpa using this
  have hmsz := blocks_ok_msize hblocks b hbbs.1
  have hsz := sizes_ok_mem hsizes hbbs.1
  rw [hbbs.2, if_pos rfl] at hmsz
  rw [← hbaddr, Node.isFree, hmsz]
  simp only [beq_iff_eq]
  omega

/-! Concrete runs of the allocator used to settle the claims.  All of
them start from a fresh aligned region at base 0. -/

/-- Region of 2048 bytes: allocate the exact capacity, then deallocate it
while the free sublist is empty. -/
def run_roundtrip_2048 : St :=
  allocator_deallocate 9 (allocator_allocate 9 (init_allocator 0 2048) 2016).2
    (allocator_allocate 9 (init_allocator 0 2048) 2016).1

/-- Region of 4096 bytes: allocate the exact capacity, then deallocate it
while the free sublist is empty. -/
def run_roundtrip_4096 : St :=
  allocator_deallocate 9 (allocator_allocate 9 (init_allocator 0 4096) 4064).2
    (allocator_allocate 9 (init_allocator 0 4096) 4064).1

/-- Region of 4096 bytes: a request whose size computation wraps to a need
of zero bytes. -/
def run_overflow_4096 : Option Nat × St :=
  allocator_allocate 9 (init_allocator 0 4096) (2 ^ 64 - 32)

/-- Region of 4096 bytes: a request of SIZE_MAX bytes, whose size
computation wraps to a need of 32 bytes. -/
def wrapAlloc : Option Nat × St :=
  allocator_allocate 9 (init_allocator 0 4096) (2 ^ 64 - 1)

/-- Region of 4096 bytes split into two allocated blocks covering it
exactly, then both deallocated in address order while the free sublist is
empty. -/
def run_two_dealloc : St :=
  let s0 := init_allocator 0 4096
  let r1 := allocator_allocate 9 s0 2000
  let r2 := allocator_allocate 9 r1.2 2032
  allocator_deallocate 9 (allocator_deallocate 9 r2.2 r1.1) r2.1

/-- Fresh region state for the three-allocation scenario. -/
def abc0 : St := init_allocator 0 4096

/-- First 100-byte allocation of the scenario. -/
def abcA : Option Nat × St := allocator_allocate 9 abc0 100

/-- Second 100-byte allocation of the scenario. -/
def abcB : Option Nat × St := allocator_allocate 9 abcA.2 100

/-- Third 100-byte allocation of the scenario. -/
def abcC : Option Nat × St := allocator_allocate 9 abcB.2 100

/-- State after deallocating b and then c. -/
def abcFree : St :=
  allocator_deallocate 9 (allocator_deallocate 9 abcC.2 abcB.1) abcC.1

/-- In a state satisfying the invariants, the head of the block list never
links to itself. -/
lemma inv_first_next_ne {st : St} {base : Nat} {bs : List Block} {a : Nat}
    (hInv : Inv st base bs = true) (ha : st.first = some a) :
    (getN st.mem a).next ≠ some a := by
  simp only [Inv, Bool.and_eq_true, beq_iff_eq] at hInv
  obtain ⟨⟨⟨⟨⟨⟨hblocks, htiling⟩, hsizes⟩, _⟩, _⟩, hfirst⟩, _⟩ := hInv
  cases bs with
  | nil => rw [ha] at hfirst; simp at hfirst
  | cons b r =>
    rw [ha] at hfirst
    simp only [List.head?_cons, Option.map_some', Option.some.injEq] at hfirst
    subst hfirst
    rw [blocks_ok, Bool.and_eq_true] at hblocks
    have h1 := hblocks.1
    simp only [node_ok, Bool.and_eq_true, beq_iff_eq] at h1
    have hnext := h1.1.1.1
    cases r with
    | nil =>
      rw [hnext]
      simp
    | cons b2 t =>
      rw [tiling_ok, Bool.and_eq_true] at htiling
      have htiling2 := htiling.2
      rw [tiling_ok, Bool.and_eq_true, beq_iff_eq] at htiling2
      have hb2 : b2.addr = b.addr + b.bsize := htiling2.1
      have hpos : 0 < b.bsize := (sizes_ok_mem hsizes (List.mem_cons_self b _)).1
      rw [hnext]
      simp only [List.head?_cons, Option.map_some', ne_eq, Option.some.injEq]
      omega

/-! Structure of the abstract block list: addresses are strictly
increasing and the free sublist threads through memory exactly along the
free block addresses. -/

lemma sizes_ok_tail {b : Block} {r : List Block} (h : sizes_ok (b :: r) = true) :
    sizes_ok r = true := by
  rw [sizes_ok, List.all_cons, Bool.and_eq_true] at h
  exact h.2

lemma tiling_le : ∀ {base : Nat} {bs : List Block}, tiling_ok base bs = true →
    ∀ y ∈ bs, base ≤ y.addr := by
  intro base bs
  induction bs generalizing base with
  | nil => intro _ y hy; cases hy
  | cons b r ih =>
    intro ht y hy
    rw [tiling_ok, Bool.and_eq_true, beq_iff_eq] at ht
    rcases List.mem_cons.mp hy with h | h
    · subst h; omega
    · have := ih ht.2 y h; omega

lemma addr_pairwise : ∀ {base : Nat} {bs : List Block}, tiling_ok base bs = true →
    sizes_ok bs = true → bs.Pairwise (fun x y => x.addr < y.addr) := by
  intro base bs
  induction bs generalizing base with
  | nil => intro _ _; exact List.Pairwise.nil
  | cons b r ih =>
    intro ht hs
    rw [tiling_ok, Bool.and_eq_true, beq_iff_eq] at ht
    have hpos : 0 < b.bsize := (sizes_ok_mem hs (List.mem_cons_self b r)).1
    refine List.Pairwise.cons ?_ (ih ht.2 (sizes_ok_tail hs))
    intro y hy
    have := tiling_le ht.2 y hy
    omega

lemma fs_pairwise {base : Nat} {bs : List Block} (ht : tiling_ok base bs = true)
    (hs : sizes_ok bs = true) : (freeAddrs bs).Pairwise (· < ·) := by
  have hp := addr_pairwise ht hs
  rw [freeAddrs, List.pairwise_map]
  exact hp.filter _

lemma freeAddrs_mem {bs : List Block} {a : Nat} (ha : a ∈ freeAddrs bs) :
    ∃ b ∈ bs, b.bfree = true ∧ b.addr = a := by
  rw [freeAddrs] at ha
  obtain ⟨b, hb, hba⟩ := List.mem_map.mp ha
  have := List.mem_filter.mp hb
  exact ⟨b, this.1, by simpa using this.2, hba⟩

lemma blocks_ok_free_links {m : Mem} {fs : List Nat} :
    ∀ {pa : Option Nat} {bs : List Block}, blocks_ok m fs pa bs = true →
      ∀ b ∈ bs, b.bfree = true →
        (getN m b.addr).nextFree = next_in fs b.addr ∧
          (getN m b.addr).prevFree = prev_in fs b.addr := by
  intro pa bs
  induction bs generalizing pa with
  | nil => intro _ b hb; cases hb
  | cons x t ih =>
    intro h b hb hf
    rw [blocks_ok, Bool.and_eq_true] at h
    rcases List.mem_cons.mp hb with hb | hb
    · subst hb
      have h1 := h.1
      simp only [node_ok, Bool.and_eq_true, beq_iff_eq, hf, Bool.not_true,
        Bool.false_or] at h1
      exact h1.2
    · exact ih h.2 b hb hf

lemma next_in_of_not_mem : ∀ (pre : List Nat) (a : Nat) (suf : List Nat),
    a ∉ pre → next_in (pre ++ a :: suf) a = suf.head? := by
  intro pre
  induction pre with
  | nil =>
    intro a suf _
    cases suf with
    | nil => rfl
    | cons y t => simp [next_in]
  | cons x pre ih =>
    intro a suf ha
    have hxa : x ≠ a := fun h => ha (by simp [h])
    have hpre : a ∉ pre := fun h => ha (List.mem_cons_of_mem x h)
    cases hp : pre ++ a :: suf with
    | nil => exact absurd hp (by simp)
    | cons y t =>
      have : (x :: pre) ++ a :: suf = x :: y :: t := by simp [hp]
      rw [this, next_in, if_neg hxa, ← hp]
      exact ih a suf hpre

lemma free_chain_suffix {m : Mem} {fs : List Nat} (hnd : fs.Nodup)
    (hlinks : ∀ a ∈ fs, (getN m a).nextFree = next_in fs a) :
    ∀ (suf pre : List Nat), fs = pre ++ suf →
      free_chain m suf.head? suf = true := by
  intro suf
  induction suf with
  | nil => intro pre h; simp [free_chain]
  | cons a r ih =>
    intro pre h
    rw [List.head?_cons, free_chain, Bool.and_eq_true]
    refine ⟨by simp, ?_⟩
    have hamem : a ∈ fs := by rw [h]; simp
    have hna : a ∉ pre := by
      intro hmem
      have hnd2 : (pre ++ a :: r).Nodup := h ▸ hnd
      exact (List.nodup_append.mp hnd2).2.2 hmem (List.mem_cons_self a r)
    rw [hlinks a hamem, h, next_in_of_not_mem pre a r hna]
    exact ih (pre ++ [a]) (by rw [h]; simp)

lemma free_chain_of_inv {st : St} {base : Nat} {bs : List Block}
    (hInv : Inv st base bs = true) :
    free_chain st.mem st.first_free (freeAddrs bs) = true := by
  simp only [Inv, Bool.and_eq_true, beq_iff_eq] at hInv
  obtain ⟨⟨⟨⟨⟨⟨hblocks, htiling⟩, hsizes⟩, _⟩, hff⟩, _⟩, _⟩ := hInv
  have hpw : (freeAddrs bs).Pairwise (· < ·) := fs_pairwise htiling hsizes
  have hnd : (freeAddrs bs).Nodup := hpw.imp Nat.ne_of_lt
  have hlinks : ∀ a ∈ freeAddrs bs,
      (getN st.mem a).nextFree = next_in (freeAddrs bs) a := by
    intro a ha
    obtain ⟨b, hbmem, hbfree, hbaddr⟩ := freeAddrs_mem ha
    exact hbaddr ▸ (blocks_ok_free_links hblocks b hbmem hbfree).1
  rw [hff]
  exact free_chain_suffix hnd hlinks (freeAddrs bs) [] rfl

/-! The first-fit walk of allocate, characterized along the free chain. -/

lemma alloc_loop_eq (st : St) (need : Nat) :
    ∀ (suf : List Nat) (fuel : Nat) (cur : Option Nat),
      free_chain st.mem cur suf = true → suf.length ≤ fuel →
      alloc_loop st need fuel cur =
        match find_fit st.mem need suf with
        | none => (none, st)
        | some p => (some p, (alloc_found st p need).2) := by
  intro suf
  induction suf with
  | nil =>
    intro fuel cur hc _
    have : cur = none := by simpa [free_chain] using hc
    subst this
    cases fuel <;> simp [alloc_loop, find_fit]
  | cons a r ih =>
    intro fuel cur hc hlen
    rw [free_chain, Bool.and_eq_true, beq_iff_eq] at hc
    obtain ⟨hcur, hrest⟩ := hc
    subst hcur
    cases fuel with
    | zero => simp at hlen
    | succ f =>
      rw [alloc_loop, find_fit]
      by_cases hsz : (getN st.mem a).size < need
      · rw [if_pos hsz, if_pos hsz]
        exact ih f _ hrest (by simpa using hlen)
      · rw [if_neg hsz, if_neg hsz]
        rfl

lemma freeAddrs_length_le (bs : List Block) : (freeAddrs bs).length ≤ bs.length := by
  rw [freeAddrs, List.length_map]
  exact List.length_filter_le _ _

lemma inv_free_size {st : St} {base : Nat} {bs : List Block}
    (hInv : Inv st base bs = true) :
    ∀ b ∈ bs, b.bfree = true → (getN st.mem b.addr).size = b.bsize := by
  simp only [Inv, Bool.and_eq_true, beq_iff_eq] at hInv
  obtain ⟨⟨⟨⟨⟨⟨hblocks, _⟩, hsizes⟩, _⟩, _⟩, _⟩, _⟩ := hInv
  intro b hb hf
  have hm := blocks_ok_msize hblocks b hb
  rw [hf, if_pos rfl] at hm
  have h16 := (sizes_ok_mem hsizes hb).2.1
  rw [Node.size, hm]
  omega

lemma find_fit_eq_first_fit {m : Mem} {need : Nat} : ∀ {bs : List Block},
    (∀ b ∈ bs, b.bfree = true → (getN m b.addr).size = b.bsize) →
      find_fit m need (freeAddrs bs) = first_fit need bs := by
  intro bs
  induction bs with
  | nil => intro _; rfl
  | cons b r ih =>
    intro hsz
    have hih := ih fun y hy => hsz y (List.mem_cons_of_mem b hy)
    cases hb : b.bfree with
    | false =>
      have hfa : freeAddrs (b :: r) = freeAddrs r := by
        simp [freeAddrs, List.filter_cons, hb]
      rw [hfa, first_fit, hb]
      simpa using hih
    | true =>
      have hfa : freeAddrs (b :: r) = b.addr :: freeAddrs r := by
        simp [freeAddrs, List.filter_cons, hb]
      have hbs := hsz b (List.mem_cons_self b r) hb
      rw [hfa, find_fit, first_fit, hbs, hb]
      by_cases hle : need ≤ b.bsize
      · rw [if_neg (by omega), if_pos (by simp [hle])]
      · rw [if_pos (by omega), if_neg (by simp [hle]), hih]

lemma first_fit_none {need : Nat} : ∀ {bs : List Block},
    (∀ b ∈ bs, b.bfree = true → b.bsize < need) → first_fit need bs = none := by
  intro bs
  induction bs with
  | nil => intro _; rfl
  | cons b r ih =>
    intro h
    rw [first_fit]
    have hcond : (b.bfree && decide (need ≤ b.bsize)) = false := by
      cases hb : b.bfree with
      | false => simp
      | true =>
        have := h b (List.mem_cons_self b r) hb
        simp [this]
    rw [hcond, if_neg (by simp)]
    exact ih fun y hy => h y (List.mem_cons_of_mem b hy)

/-! Pointer-level effect lemmas for the operations performed by allocate
on the found block, under the separation facts provided by the
invariants. -/

lemma merge_no_fire {m : Mem} {a : Nat}
    (h1 : ∀ q, (getN m a).nextFree = some q → ¬(a + (getN m a).msize = q))
    (h2 : ∀ q, (getN m a).prevFree = some q → ¬(q + (getN m q).msize = a)) :
    merge m a = m := by
  rw [merge]
  cases hnf : (getN m a).nextFree with
  | none =>
    cases hpf : (getN m a).prevFree with
    | none => simp
    | some x => simp [h2 x hpf]
  | some q =>
    cases hpf : (getN m a).prevFree with
    | none => simp [h1 q hnf, hpf]
    | some x => simp [h1 q hnf, hpf, h2 x hpf]

lemma unlink_from_freelist_spec {m : Mem} {a : Nat}
    (hp : ∀ x, (getN m a).prevFree = some x → x ≠ a)
    (hn : ∀ q, (getN m a).nextFree = some q → q ≠ a) :
    getN (unlink_from_freelist m a) a =
      { getN m a with msize := (getN m a).msize - (getN m a).msize % 2 + 1 } := by
  rw [unlink_from_freelist]
  cases hpf : (getN m a).prevFree with
  | none =>
    cases hnf : (getN m a).nextFree with
    | none => simp [set_allocated]
    | some q =>
      have haq : a ≠ q := fun h => hn q hnf h.symm
      simp [set_allocated, getN_upd_ne haq, hnf]
  | some x =>
    have hax : a ≠ x := fun h => hp x hpf h.symm
    cases hnf : (getN m a).nextFree with
    | none => simp [set_allocated, getN_upd_ne hax, hnf]
    | some q =>
      have haq : a ≠ q := fun h => hn q hnf h.symm
      simp [set_allocated, getN_upd_ne hax, getN_upd_ne haq, hnf, hpf]

lemma append_to_list_spec {m : Mem} {self p : Nat}
    (hsp : self ≠ p)
    (hrr : ∀ rr, (getN m self).next = some rr → rr ≠ self ∧ rr ≠ p) :
    getN (append_to_list m self p) self = { getN m self with next := some p } ∧
      getN (append_to_list m self p) p =
        { getN m p with next := (getN m self).next, prev := some self } := by
  have hps : p ≠ self := Ne.symm hsp
  rw [append_to_list]
  cases hnx : (getN m self).next with
  | none =>
    constructor
    · simp [getN_upd_ne hsp, hnx]
    · simp [getN_upd_ne hps, hnx]
  | some rr =>
    have hrs : self ≠ rr := fun h => (hrr rr hnx).1 h.symm
    have hrp : p ≠ rr := fun h => (hrr rr hnx).2 h.symm
    constructor
    · simp [getN_upd_ne hsp, getN_upd_ne hrs, hnx]
    · simp [getN_upd_ne hps, getN_upd_ne hrp, getN_upd_ne hrs, hnx]

lemma append_to_freelist_spec {m : Mem} {self p : Nat}
    (hsp : self ≠ p)
    (hq : ∀ q, (getN m self).nextFree = some q → q ≠ self ∧ q ≠ p)
    (hfwd : ∀ q, (getN m self).nextFree = some q →
      ¬(p + ((getN m p).msize - (getN m p).msize % 2) = q))
    (hbwd : ¬(self + (getN m self).msize = p)) :
    getN (append_to_freelist m self p) self =
        { getN m self with nextFree := some p } ∧
      getN (append_to_freelist m self p) p =
        { getN m p with
            msize := ((getN m p).msize - (getN m p).msize % 2)
            nextFree := (getN m self).nextFree
            prevFree := some self } := by
  have hps : p ≠ self := Ne.symm hsp
  rw [append_to_freelist]
  cases hnf : (getN m self).nextFree with
  | none =>
    constructor
    · rw [merge_no_fire] <;>
        simp [set_free, getN_upd_ne hsp, getN_upd_ne hps, hnf, hbwd]
    · rw [merge_no_fire] <;>
        simp [set_free, getN_upd_ne hsp, getN_upd_ne hps, hnf, hbwd]
  | some q =>
    have hqs : self ≠ q := fun h => (hq q hnf).1 h.symm
    have hqp : p ≠ q := fun h => (hq q hnf).2 h.symm
    constructor
    · rw [merge_no_fire] <;>
        simp [set_free, getN_upd_ne hsp, getN_upd_ne hps, getN_upd_ne hqs,
          getN_upd_ne hqp, hnf, hbwd, hfwd q hnf]
    · rw [merge_no_fire] <;>
        simp [set_free, getN_upd_ne hsp, getN_upd_ne hps, getN_upd_ne hqs,
          getN_upd_ne hqp, hnf, hbwd, hfwd q hnf]

lemma split_spec {m : Mem} {a size : Nat}
    (h0 : 0 < size)
    (heq : (getN m a).msize % 2 = 0)
    (hse : size % 2 = 0)
    (hlt : size < (getN m a).msize)
    (hW : (getN m a).msize < W)
    (hrr : ∀ rr, (getN m a).next = some rr → rr ≠ a ∧ rr ≠ a + size)
    (hq : ∀ q, (getN m a).nextFree = some q →
      q ≠ a ∧ q ≠ a + size ∧ ¬(a + (getN m a).msize = q)) :
    getN (split m a size) a =
        { getN m a with
            next := some (a + size)
            msize := size
            nextFree := some (a + size) } ∧
      getN (split m a size) (a + size) =
        ⟨(getN m a).next, some a, (getN m a).msize - size,
          (getN m a).nextFree, some a⟩ := by
  have hta : a + size ≠ a := by omega
  have hat : a ≠ a + size := by omega
  have hsub : sub64 (getN m a).msize size = (getN m a).msize - size :=
    sub64_eq_of_le (le_of_lt hlt) hW
  simp only [split]
  have e1a : getN (setN m (a + size)
      ⟨none, none, sub64 (getN m a).msize size, none, none⟩) a = getN m a :=
    getN_setN_ne hat
  have e1t : getN (setN m (a + size)
      ⟨none, none, sub64 (getN m a).msize size, none, none⟩) (a + size) =
      ⟨none, none, sub64 (getN m a).msize size, none, none⟩ :=
    getN_setN_same _ _ _
  have hrr1 : ∀ rr, (getN (setN m (a + size)
      ⟨none, none, sub64 (getN m a).msize size, none, none⟩) a).next = some rr →
      rr ≠ a ∧ rr ≠ a + size := by rw [e1a]; exact hrr
  obtain ⟨hl1, hl2⟩ := append_to_list_spec (p := a + size) hat hrr1
  have h2a : getN (append_to_list (setN m (a + size)
      ⟨none, none, sub64 (getN m a).msize size, none, none⟩) a (a + size)) a =
      { getN m a with next := some (a + size) } := by rw [hl1, e1a]
  have h2t : getN (append_to_list (setN m (a + size)
      ⟨none, none, sub64 (getN m a).msize size, none, none⟩) a (a + size))
      (a + size) =
      ⟨(getN m a).next, some a, (getN m a).msize - size, none, none⟩ := by
    rw [hl2, e1t, e1a, hsub]
  have e2anf : (getN (append_to_list (setN m (a + size)
      ⟨none, none, sub64 (getN m a).msize size, none, none⟩) a (a + size)) a).nextFree =
      (getN m a).nextFree := by rw [h2a]
  have e2amsz : (getN (append_to_list (setN m (a + size)
      ⟨none, none, sub64 (getN m a).msize size, none, none⟩) a (a + size)) a).msize =
      (getN m a).msize := by rw [h2a]
  have hq2 : ∀ q, (getN (append_to_list (setN m (a + size)
      ⟨none, none, sub64 (getN m a).msize size, none, none⟩) a (a + size)) a).nextFree =
      some q → q ≠ a ∧ q ≠ a + size := by
    intro q h
    rw [e2anf] at h
    exact ⟨(hq q h).1, (hq q h).2.1⟩
  have hfwd2 : ∀ q, (getN (append_to_list (setN m (a + size)
      ⟨none, none, sub64 (getN m a).msize size, none, none⟩) a (a + size)) a).nextFree =
      some q →
      ¬((a + size) + ((getN (append_to_list (setN m (a + size)
          ⟨none, none, sub64 (getN m a).msize size, none, none⟩) a (a + size))
            (a + size)).msize -
        (getN (append_to_list (setN m (a + size)
          ⟨none, none, sub64 (getN m a).msize size, none, none⟩) a (a + size))
            (a + size)).msize % 2) = q) := by
    intro q h hc
    rw [e2anf] at h
    rw [h2t] at hc
    exact (hq q h).2.2 (by simp at hc; omega)
  have hbwd2 : ¬(a + (getN (append_to_list (setN m (a + size)
      ⟨none, none, sub64 (getN m a).msize size, none, none⟩) a (a + size)) a).msize =
      a + size) := by
    rw [e2amsz]; omega
  obtain ⟨hf1, hf2⟩ := append_to_freelist_spec hat hq2 hfwd2 hbwd2
  constructor
  · rw [getN_upd_same, hf1, h2a]
  · rw [getN_upd_ne hta, hf2, h2t, e2anf]
    simp only [Node.mk.injEq, true_and, and_true]
    omega

lemma alloc_found_fst (st : St) (p need : Nat) : (alloc_found st p need).1 = p := rfl

lemma alloc_found_spec_split (st : St) (p need : Nat)
    (h0 : 0 < need) (hne : need % 2 = 0)
    (heq : (getN st.mem p).msize % 2 = 0)
    (hW : (getN st.mem p).msize < W)
    (hguard : nodeSize ≤ (getN st.mem p).msize - need)
    (hrr : ∀ rr, (getN st.mem p).next = some rr → rr ≠ p ∧ rr ≠ p + need)
    (hq : ∀ q, (getN st.mem p).nextFree = some q →
      q ≠ p ∧ q ≠ p + need ∧ ¬(p + (getN st.mem p).msize = q))
    (hx : ∀ x, (getN st.mem p).prevFree = some x → x ≠ p) :
    (alloc_found st p need).2.allocated = add64 st.allocated need := by
  have h48 : (0 : Nat) < nodeSize := by decide
  have hlt : need < (getN st.mem p).msize := by omega
  have hsz : (getN st.mem p).size = (getN st.mem p).msize := by
    rw [Node.size]; omega
  have hif : (if nodeSize ≤ sub64 (getN st.mem p).size need
      then split st.mem p need else st.mem) = split st.mem p need := by
    rw [hsz, sub64_eq_of_le (le_of_lt hlt) hW]
    exact if_pos hguard
  obtain ⟨hsp1, _⟩ := split_spec h0 heq hne hlt hW hrr hq
  have hu := unlink_from_freelist_spec (m := split st.mem p need) (a := p)
    (by intro x h; rw [hsp1] at h; exact hx x h)
    (by intro q h; rw [hsp1] at h; simp at h; omega)
  have hsize2 : (getN (unlink_from_freelist (split st.mem p need) p) p).size =
      need := by
    rw [hu, hsp1, Node.size]
    simp
    omega
  simp only [alloc_found, hif]
  rw [hsize2]

lemma alloc_found_spec_whole (st : St) (p need : Nat)
    (heq : (getN st.mem p).msize % 2 = 0)
    (hW : (getN st.mem p).msize < W)
    (hguard : (getN st.mem p).msize - need < nodeSize)
    (hle : need ≤ (getN st.mem p).msize)
    (hq : ∀ q, (getN st.mem p).nextFree = some q → q ≠ p)
    (hx : ∀ x, (getN st.mem p).prevFree = some x → x ≠ p) :
    (alloc_found st p need).2.allocated =
      add64 st.allocated (getN st.mem p).msize := by
  have hsz : (getN st.mem p).size = (getN st.mem p).msize := by
    rw [Node.size]; omega
  have hif : (if nodeSize ≤ sub64 (getN st.mem p).size need
      then split st.mem p need else st.mem) = st.mem := by
    rw [hsz, sub64_eq_of_le hle hW]
    exact if_neg (by omega)
  have hu := unlink_from_freelist_spec (m := st.mem) (a := p) hx hq
  have hsize2 : (getN (unlink_from_freelist st.mem p) p).size =
      (getN st.mem p).msize := by
    rw [hu, Node.size]
    simp
    omega
  simp only [alloc_found, hif]
  rw [hsize2]

/-! Position lemmas on the abstract block list, used to discharge the
separation hypotheses of the effect lemmas. -/

lemma first_fit_eq_some {need : Nat} : ∀ {bs : List Block} {P : Nat},
    first_fit need bs = some P →
    ∃ l b r, bs = l ++ b :: r ∧ P = b.addr ∧ b.bfree = true ∧
      need ≤ b.bsize := by
  intro bs
  induction bs with
  | nil => intro P h; rw [first_fit] at h; cases h
  | cons b r ih =>
    intro P h
    rw [first_fit] at h
    by_cases hc : (b.bfree && decide (need ≤ b.bsize)) = true
    · rw [if_pos hc] at h
      rw [Bool.and_eq_true, decide_eq_true_eq] at hc
      injection h with h
      exact ⟨[], b, r, rfl, h.symm, hc.1, hc.2⟩
    · rw [if_neg hc] at h
      obtain ⟨l, y, s, hbs, h1, h2, h3⟩ := ih h
      exact ⟨b :: l, y, s, by rw [hbs, List.cons_append], h1, h2, h3⟩

lemma first_fit_isSome (need : Nat) : ∀ (bs : List Block),
    (∃ b ∈ bs, b.bfree = true ∧ need ≤ b.bsize) →
      ∃ P, first_fit need bs = some P := by
  intro bs
  induction bs with
  | nil => intro h; obtain ⟨y, hy, _⟩ := h; cases hy
  | cons b r ih =>
    intro h
    rw [first_fit]
    by_cases hc : (b.bfree && decide (need ≤ b.bsize)) = true
    · exact ⟨b.addr, by rw [if_pos hc]⟩
    · obtain ⟨y, hy, hyf, hyl⟩ := h
      rcases List.mem_cons.mp hy with e | m
      · subst e
        rw [Bool.and_eq_true, decide_eq_true_eq] at hc
        exact absurd ⟨hyf, hyl⟩ hc
      · obtain ⟨P, hP⟩ := ih ⟨y, m, hyf, hyl⟩
        exact ⟨P, by rw [if_neg hc]; exact hP⟩

lemma tiling_ok_infix : ∀ {l : List Block} {base : Nat} {b : Block}
    {r : List Block}, tiling_ok base (l ++ b :: r) = true →
    tiling_ok b.addr (b :: r) = true := by
  intro l
  induction l with
  | nil =>
    intro base b r h
    rw [List.nil_append, tiling_ok, Bool.and_eq_true] at h
    rw [tiling_ok, Bool.and_eq_true]
    exact ⟨by simp, h.2⟩
  | cons x l ih =>
    intro base b r h
    rw [List.cons_append, tiling_ok, Bool.and_eq_true] at h
    exact ih h.2

lemma tiling_junction {base : Nat} {l : List Block} {b b2 : Block}
    {t : List Block} (h : tiling_ok base (l ++ b :: b2 :: t) = true) :
    b2.addr = b.addr + b.bsize := by
  have h2 := tiling_ok_infix (l := l) h
  rw [tiling_ok, Bool.and_eq_true] at h2
  have h3 := h2.2
  rw [tiling_ok, Bool.and_eq_true, beq_iff_eq] at h3
  exact h3.1

lemma no_adj_junction : ∀ {l : List Block} {b b2 : Block} {t : List Block},
    no_adj_free (l ++ b :: b2 :: t) = true → (b.bfree && b2.bfree) = false := by
  intro l
  induction l with
  | nil =>
    intro b b2 t h
    rw [List.nil_append, no_adj_free, Bool.and_eq_true] at h
    have h1 := h.1
    cases hbb : (b.bfree && b2.bfree) with
    | false => rfl
    | true => rw [hbb] at h1; simp at h1
  | cons x l ih =>
    intro b b2 t h
    rw [List.cons_append] at h
    cases hp : l ++ b :: b2 :: t with
    | nil => exact absurd hp (by simp)
    | cons y s =>
      rw [hp, no_adj_free, Bool.and_eq_true] at h
      have h2 := h.2
      rw [← hp] at h2
      exact ih h2

lemma addr_inj {bs : List Block}
    (hpw : bs.Pairwise fun x y => x.addr < y.addr) :
    ∀ b1 ∈ bs, ∀ b2 ∈ bs, b1.addr = b2.addr → b1 = b2 := by
  induction bs with
  | nil => intro b1 h; cases h
  | cons x r ih =>
    intro b1 h1 b2 h2 he
    rw [List.pairwise_cons] at hpw
    rcases List.mem_cons.mp h1 with e1 | m1 <;> rcases List.mem_cons.mp h2 with e2 | m2
    · rw [e1, e2]
    · exfalso; have := hpw.1 b2 m2; rw [e1] at he; omega
    · exfalso; have := hpw.1 b1 m1; rw [e2] at he; omega
    · exact ih hpw.2 b1 m1 b2 m2 he

lemma tiling_sep {bs : List Block} : ∀ {base : Nat},
    tiling_ok base bs = true → sizes_ok bs = true →
    ∀ b1 ∈ bs, ∀ b2 ∈ bs, b1.addr < b2.addr →
      b1.addr + b1.bsize ≤ b2.addr := by
  induction bs with
  | nil => intro base _ _ b1 h; cases h
  | cons x r ih =>
    intro base ht hs b1 h1 b2 h2 hlt
    rw [tiling_ok, Bool.and_eq_true, beq_iff_eq] at ht
    have hxpos : 0 < x.bsize := (sizes_ok_mem hs (List.mem_cons_self x r)).1
    rcases List.mem_cons.mp h1 with e1 | m1 <;> rcases List.mem_cons.mp h2 with e2 | m2
    · exfalso; rw [e1, e2] at hlt; omega
    · rw [e1]; exact tiling_le ht.2 b2 m2
    · exfalso
      have := tiling_le ht.2 b1 m1
      rw [e2] at hlt
      omega
    · exact ih ht.2 (sizes_ok_tail hs) b1 m1 b2 m2 hlt

lemma next_in_lt : ∀ {fs : List Nat} {a q : Nat}, fs.Pairwise (· < ·) →
    next_in fs a = some q → a < q ∧ q ∈ fs := by
  intro fs
  induction fs with
  | nil => intro a q _ h; cases h
  | cons x fs ih =>
    intro a q hpw h
    cases fs with
    | nil => cases h
    | cons y t =>
      rw [next_in] at h
      rw [List.pairwise_cons] at hpw
      by_cases hxa : x = a
      · rw [if_pos hxa] at h
        injection h with h
        refine ⟨?_, by rw [← h]; simp⟩
        have := hpw.1 y (List.mem_cons_self y t)
        omega
      · rw [if_neg hxa] at h
        have := ih hpw.2 h
        exact ⟨this.1, List.mem_cons_of_mem x this.2⟩

lemma prev_in_lt : ∀ {fs : List Nat} {a x : Nat}, fs.Pairwise (· < ·) →
    prev_in fs a = some x → x < a := by
  intro fs
  induction fs with
  | nil => intro a x _ h; cases h
  | cons z fs ih =>
    intro a x hpw h
    cases fs with
    | nil => cases h
    | cons y t =>
      rw [prev_in] at h
      rw [List.pairwise_cons] at hpw
      by_cases hya : y = a
      · rw [if_pos hya] at h
        injection h with h
        have := hpw.1 y (List.mem_cons_self y t)
        omega
      · rw [if_neg hya] at h
        exact ih hpw.2 h

lemma blocks_ok_next_infix {m : Mem} {fs : List Nat} :
    ∀ {pa : Option Nat} {l : List Block} {b : Block} {r : List Block},
      blocks_ok m fs pa (l ++ b :: r) = true →
      (getN m b.addr).next = (r.head?).map fun x => x.addr := by
  intro pa l
  induction l generalizing pa with
  | nil =>
    intro b r h
    rw [List.nil_append, blocks_ok, Bool.and_eq_true] at h
    have h1 := h.1
    simp only [node_ok, Bool.and_eq_true, beq_iff_eq] at h1
    exact h1.1.1.1
  | cons x l ih =>
    intro b r h
    rw [List.cons_append, blocks_ok, Bool.and_eq_true] at h
    exact ih h.2

/-! Claim theorems. -/

/-- C1: the claim states that a block is linked into the free sublist iff
its state bit is 0, and in particular that every deallocate leaves the
freed block with state bit 0 even when the free sublist was empty.  The
code violates this: on a 2048-byte region, allocating the exact capacity
empties the free sublist, and the following deallocate takes the branch
that installs the block as m_first_free without calling set_free, so the
head of the free sublist keeps state bit 1. -/
theorem c1_deallocate_empty_freelist_keeps_state_bit :
    run_roundtrip_2048.first_free = some 0 ∧
      (getN run_roundtrip_2048.mem 0).isFree = false ∧
      (getN run_roundtrip_2048.mem 0).msize = 2049 ∧
      run_roundtrip_2048.allocated = 0 := by decide

/-- C2: the claim states that an allocate followed by deallocate of the
returned pointer restores invariants T1 to T7 and the previous value of
allocated().  Starting from a state satisfying T1 to T7 (a fresh 4096-byte
region), allocating the exact capacity and deallocating the returned
pointer does restore allocated(), but the resulting state satisfies the
invariants for NO abstract block list: the free-sublist head keeps state
bit 1, violating T5. -/
theorem c2_round_trip_violates_invariants :
    Inv (init_allocator 0 4096) 0 [⟨0, 4096, true⟩] = true ∧
      (allocator_allocate 9 (init_allocator 0 4096) 4064).1 = some 32 ∧
      run_roundtrip_4096.allocated = (init_allocator 0 4096).allocated ∧
      ∀ (base : Nat) (bs : List Block), Inv run_roundtrip_4096 base bs = false := by
  refine ⟨by decide, by decide, by decide, ?_⟩
  intro base bs
  cases h : Inv run_roundtrip_4096 base bs with
  | false => rfl
  | true =>
    exact absurd (inv_first_free_isFree (a := 0) h (by decide)) (by decide)

/-- C4: the claim states that the blocks always tile the adjusted region,
the tiling being preserved by construction, splits and merges.  The code
violates this: requesting 2 ^ 64 - 32 bytes on a fresh 4096-byte region
makes the need computation wrap to 0, and split(0) placement-news the tail
node on top of the found node itself, producing a block list whose head
links to itself with true size 0.  No abstract block list satisfies the
invariants for the resulting state. -/
theorem c4_overflow_split_breaks_tiling :
    run_overflow_4096.1 = some 32 ∧
      (getN run_overflow_4096.2.mem 0).next = some 0 ∧
      (getN run_overflow_4096.2.mem 0).size = 0 ∧
      run_overflow_4096.2.first = some 0 ∧
      run_overflow_4096.2.allocated = 0 ∧
      ∀ (base : Nat) (bs : List Block), Inv run_overflow_4096.2 base bs = false := by
  refine ⟨by decide, by decide, by decide, by decide, by decide, ?_⟩
  intro base bs
  cases h : Inv run_overflow_4096.2 base bs with
  | false => rfl
  | true =>
    exact absurd (show (getN run_overflow_4096.2.mem 0).next = some 0 by decide)
      (inv_first_next_ne h (by decide))

/-- C5: the claim states that no two address-adjacent blocks are ever both
free, every deallocate coalescing with its free neighbours.  The code
violates this: on a 4096-byte region tiled by two allocated blocks at 0
(size 2032) and 2032 (size 2064), deallocating both in address order
leaves two address-adjacent blocks that are both linked into the free
sublist and not coalesced.  The first deallocate ran with an empty free
sublist and left the state bit of block 0 set, so the backward scan of the
second deallocate does not recognize block 0 as free and no merge
happens. -/
theorem c5_adjacent_freed_blocks_not_coalesced :
    (getN run_two_dealloc.mem 0).next = some 2032 ∧
      (getN run_two_dealloc.mem 0).size = 2032 ∧
      (getN run_two_dealloc.mem 2032).size = 2064 ∧
      run_two_dealloc.first_free = some 2032 ∧
      (getN run_two_dealloc.mem 2032).nextFree = some 0 ∧
      (getN run_two_dealloc.mem 2032).isFree = true ∧
      (getN run_two_dealloc.mem 0).isFree = false ∧
      run_two_dealloc.allocated = 0 := by decide

/-- C7 counterexample: the claim predicts that after a = allocate(100),
b = allocate(100), c = allocate(100), deallocate(b), deallocate(c) on a
fresh 4096-byte region, the region previously occupied by b and c is a
single free block of size 2 * round_up(100 + H) = 288.  In fact the freed
span coalesces further with the trailing free remainder: the block list is
exactly the allocated block at 0 and one free block at 144 of size 3952,
and no block of size 288 exists. -/
theorem c7_forward_coalesce_counterexample :
    abcA.1 = some 32 ∧ abcB.1 = some 176 ∧ abcC.1 = some 320 ∧
      (getN abcFree.mem 0).next = some 144 ∧
      (getN abcFree.mem 144).next = none ∧
      (getN abcFree.mem 144).isFree = true ∧
      (getN abcFree.mem 144).size ≠ 2 * spec_round_up_to_A (100 + headerSize) ∧
      (getN abcFree.mem 0).size ≠ 2 * spec_round_up_to_A (100 + headerSize) := by
  decide

/-- C7 amended: after the same scenario, the region previously occupied by
b and c is contained in a single free block starting at the former address
of b; its size is 2 * round_up(100 + H) plus the trailing free remainder
of the region, and it extends to the end of the region. -/
theorem c7_forward_coalesce_amended :
    abcA.1 = some 32 ∧ abcB.1 = some 176 ∧ abcC.1 = some 320 ∧
      (getN abcFree.mem 144).isFree = true ∧
      (getN abcFree.mem 144).next = none ∧
      (getN abcFree.mem 144).size =
        2 * spec_round_up_to_A (100 + headerSize) +
          (4096 - 3 * spec_round_up_to_A (100 + headerSize)) ∧
      144 + (getN abcFree.mem 144).size = 4096 ∧
      abcFree.first_free = some 144 ∧
      abcFree.allocated = spec_round_up_to_A (100 + headerSize) := by decide

/-- C8: contains(address) is true iff the address lies in the closed-below
open-above range of the adjusted region; in particular it is true for the
last byte of the region and false for the one-past-the-end address,
because span::back() dereferences m_data + m_size. -/
theorem c8_contains_half_open (memory size a : Nat) :
    (contains (mk_allocator memory size) a = true ↔
        (mk_allocator memory size).base ≤ a ∧
          a < (mk_allocator memory size).base + (mk_allocator memory size).msize) ∧
      (0 < (mk_allocator memory size).msize →
        contains (mk_allocator memory size)
            ((mk_allocator memory size).base + (mk_allocator memory size).msize - 1) =
          true ∧
          contains (mk_allocator memory size)
            ((mk_allocator memory size).base + (mk_allocator memory size).msize) =
            false) := by
  constructor
  · simp [contains]
  · intro h
    constructor
    · simp only [contains, Bool.and_eq_true, decide_eq_true_eq]
      omega
    · simp only [contains, Bool.and_eq_false_iff, decide_eq_false_iff_not]
      omega

/-- C8 witness: on a 4096-byte region at base 0 the last byte address 4095
is contained and the one-past-the-end address 4096 is not. -/
theorem c8_contains_half_open_witness :
    0 < (mk_allocator 0 4096).msize ∧
      (contains (mk_allocator 0 4096)
          ((mk_allocator 0 4096).base + (mk_allocator 0 4096).msize - 1) = true ∧
        contains (mk_allocator 0 4096)
          ((mk_allocator 0 4096).base + (mk_allocator 0 4096).msize) = false) :=
  ⟨by decide, (c8_contains_half_open 0 4096 0).2 (by decide)⟩

/-- C9: the size computation of allocate is modulo 2 ^ 64.  Requesting
SIZE_MAX bytes on a fresh 4096-byte region wraps the need to 32 bytes, so
allocate returns a non-null pointer whose allocation_size is 0, strictly
smaller than the requested size, instead of returning null. -/
theorem c9_size_wraparound :
    computeNeed (2 ^ 64 - 1) = 32 ∧
      wrapAlloc.1 = some 32 ∧
      allocation_size wrapAlloc.2.mem 32 = 0 ∧
      allocation_size wrapAlloc.2.mem 32 < 2 ^ 64 - 1 := by decide

/-- C3 counterexample: the claim computes the need in unbounded arithmetic
as round_up(requested + header) and predicts a null return when no free
block reaches it.  On a fresh 4096-byte region whose single free block has
size 4096, a request of SIZE_MAX has an unbounded need of 2 ^ 64 + 32,
larger than every free block, yet allocate returns a non-null pointer
because the code computes the need in size_t arithmetic, where it wraps to
32. -/
theorem c3_need_overflow_counterexample :
    (init_allocator 0 4096).first_free = some 0 ∧
      (getN (init_allocator 0 4096).mem 0).nextFree = none ∧
      (getN (init_allocator 0 4096).mem 0).size = 4096 ∧
      4096 < spec_round_up_to_A (2 ^ 64 - 1 + headerSize) ∧
      wrapAlloc.1 ≠ none := by decide

/-- C3 amended: for every state satisfying the invariants, allocate
computes the need as round_up_to_A(requested_size + header_size) in size_t
arithmetic, that is modulo 2 ^ 64, scans the free sublist from first_free
forward, and returns the payload address (header address plus header size)
of the first free block whose size is at least that need, or null when no
free block reaches it. -/
theorem c3_first_fit_modular (st : St) (base : Nat) (bs : List Block)
    (sz fuel : Nat) (hInv : Inv st base bs = true) (hfuel : bs.length ≤ fuel) :
    (allocator_allocate fuel st sz).1 =
      (first_fit (computeNeed sz) bs).map fun a => a + headerSize := by
  have hchain := free_chain_of_inv hInv
  have hlen : (freeAddrs bs).length ≤ fuel :=
    le_trans (freeAddrs_length_le bs) hfuel
  have heq := alloc_loop_eq st (computeNeed sz) (freeAddrs bs) fuel st.first_free
    hchain hlen
  rw [find_fit_eq_first_fit (inv_free_size hInv)] at heq
  rw [allocator_allocate, list_allocate, heq]
  cases first_fit (computeNeed sz) bs <;> simp

/-- C3 witness: on a fresh 4096-byte region a request of 100 bytes is
served by the single free block at 0 and the returned payload address is
32. -/
theorem c3_first_fit_modular_witness :
    Inv (init_allocator 0 4096) 0 [⟨0, 4096, true⟩] = true ∧
      (allocator_allocate 9 (init_allocator 0 4096) 100).1 =
        (first_fit (computeNeed 100) [⟨0, 4096, true⟩]).map fun a => a + headerSize :=
  ⟨by decide,
    c3_first_fit_modular (init_allocator 0 4096) 0 [⟨0, 4096, true⟩] 100 9
      (by decide) (by decide)⟩

/-- C6: for every state satisfying the invariants in which every free
block is smaller than the computed need, allocate returns null and the
entire allocator state (memory, free sublist, first_free and the live-byte
counter) is returned unchanged. -/
theorem c6_allocate_fail_state_unchanged (st : St) (base : Nat)
    (bs : List Block) (sz fuel : Nat) (hInv : Inv st base bs = true)
    (hfuel : bs.length ≤ fuel)
    (hsmall : ∀ b ∈ bs, b.bfree = true → b.bsize < computeNeed sz) :
    allocator_allocate fuel st sz = (none, st) := by
  have hchain := free_chain_of_inv hInv
  have hlen : (freeAddrs bs).length ≤ fuel :=
    le_trans (freeAddrs_length_le bs) hfuel
  have heq := alloc_loop_eq st (computeNeed sz) (freeAddrs bs) fuel st.first_free
    hchain hlen
  rw [find_fit_eq_first_fit (inv_free_size hInv), first_fit_none hsmall] at heq
  rw [allocator_allocate, list_allocate, heq]

/-- C10: allocate(0) is not rejected.  For every state satisfying the
invariants with at least one free block of at least the rounded-up header
size (32 bytes), allocate with requested size 0 returns a non-null pointer
aligned to the block alignment and consumes one whole block of minimal
size for the request, adding the size of that block, at least 32 and less
than 32 + sizeof(node) bytes, to the live-byte counter. -/
theorem c10_allocate_zero (st : St) (base : Nat) (bs : List Block)
    (fuel : Nat) (hInv : Inv st base bs = true) (hfuel : bs.length ≤ fuel)
    (hfit : ∃ b ∈ bs, b.bfree = true ∧ headerSize ≤ b.bsize) :
    ∃ p st2, allocator_allocate fuel st 0 = (some p, st2) ∧ p % 16 = 0 ∧
      ∃ k, headerSize ≤ k ∧ k < headerSize + nodeSize ∧
        st2.allocated = add64 st.allocated k := by
  have h32 : headerSize = 32 := rfl
  have h48 : nodeSize = 48 := rfl
  have hneed : computeNeed 0 = headerSize := by decide
  have hchain := free_chain_of_inv hInv
  have hlen : (freeAddrs bs).length ≤ fuel :=
    le_trans (freeAddrs_length_le bs) hfuel
  have heq := alloc_loop_eq st (computeNeed 0) (freeAddrs bs) fuel
    st.first_free hchain hlen
  rw [find_fit_eq_first_fit (inv_free_size hInv)] at heq
  obtain ⟨P, hP⟩ := first_fit_isSome (computeNeed 0) bs
    (by rw [hneed]; exact hfit)
  obtain ⟨l, b, r, hbs, hPaddr, hbfree, hble⟩ := first_fit_eq_some hP
  subst hPaddr
  rw [hP] at heq
  rw [hneed] at hble
  have hI := hInv
  simp only [Inv, Bool.and_eq_true, beq_iff_eq] at hI
  obtain ⟨⟨⟨⟨⟨⟨hblocks, htiling⟩, hsizes⟩, hnoadj⟩, _⟩, _⟩, _⟩ := hI
  have hbmem : b ∈ bs := by rw [hbs]; simp
  have hmsz : (getN st.mem b.addr).msize = b.bsize := by
    have h1 := blocks_ok_msize hblocks b hbmem
    rw [hbfree, if_pos rfl] at h1
    simpa using h1
  have hsz4 := sizes_ok_mem hsizes hbmem
  have heven : (getN st.mem b.addr).msize % 2 = 0 := by rw [hmsz]; omega
  have hWb : (getN st.mem b.addr).msize < W := by
    rw [hmsz]; exact hsz4.2.2.2
  have hblocks2 : blocks_ok st.mem (freeAddrs bs) none (l ++ b :: r) = true := by
    rw [← hbs]; exact hblocks
  have hnext : (getN st.mem b.addr).next = (r.head?).map fun x => x.addr :=
    blocks_ok_next_infix hblocks2
  have hfl := blocks_ok_free_links hblocks b hbmem hbfree
  have hfspw : (freeAddrs bs).Pairwise (· < ·) := fs_pairwise htiling hsizes
  have hbspw : bs.Pairwise (fun x y => x.addr < y.addr) :=
    addr_pairwise htiling hsizes
  have hqfact : ∀ q, (getN st.mem b.addr).nextFree = some q →
      b.addr + b.bsize < q := by
    intro q hq
    rw [hfl.1] at hq
    have hlq := next_in_lt hfspw hq
    obtain ⟨bq, hbqmem, hbqfree, hbqaddr⟩ := freeAddrs_mem hlq.2
    have hsep : b.addr + b.bsize ≤ q := by
      have := tiling_sep htiling hsizes b hbmem bq hbqmem (by omega)
      omega
    rcases Nat.lt_or_ge (b.addr + b.bsize) q with hcase | hcase
    · exact hcase
    · exfalso
      have hqe : bq.addr = b.addr + b.bsize := by omega
      cases hr : r with
      | nil =>
        rw [hbs, hr] at hbqmem
        rcases List.mem_append.mp hbqmem with hin | hin
        · have hpw2 := hbspw
          rw [hbs, hr] at hpw2
          have := (List.pairwise_append.mp hpw2).2.2 bq hin b
            (List.mem_cons_self b [])
          have hpos := hsz4.1
          omega
        · simp only [List.mem_singleton] at hin
          rw [hin] at hqe
          have hpos := hsz4.1
          omega
      | cons b2 t =>
        have hj : b2.addr = b.addr + b.bsize := by
          rw [hbs, hr] at htiling
          exact tiling_junction htiling
        have hb2mem : b2 ∈ bs := by rw [hbs, hr]; simp
        have hbq2 : bq = b2 := addr_inj hbspw bq hbqmem b2 hb2mem (by omega)
        have hnadj : (b.bfree && b2.bfree) = false := by
          rw [hbs, hr] at hnoadj
          exact no_adj_junction hnoadj
        rw [hbq2] at hbqfree
        rw [hbfree, hbqfree] at hnadj
        simp at hnadj
  have hxfact : ∀ x, (getN st.mem b.addr).prevFree = some x → x < b.addr := by
    intro x hx
    rw [hfl.2] at hx
    exact prev_in_lt hfspw hx
  have hrrfact : ∀ rr, (getN st.mem b.addr).next = some rr →
      rr = b.addr + b.bsize := by
    intro rr hrr
    rw [hnext] at hrr
    cases hr : r with
    | nil => rw [hr] at hrr; simp at hrr
    | cons b2 t =>
      rw [hr] at hrr
      simp only [List.head?_cons, Option.map_some', Option.some.injEq] at hrr
      have hj : b2.addr = b.addr + b.bsize := by
        rw [hbs, hr] at htiling
        exact tiling_junction htiling
      omega
  by_cases hguard : nodeSize ≤ (getN st.mem b.addr).msize - computeNeed 0
  · have hguard2 := hguard
    rw [hmsz] at hguard2
    have hal := alloc_found_spec_split st b.addr (computeNeed 0)
      (by decide) (by decide) heven hWb hguard
      (by intro rr h
          have hre := hrrfact rr h
          have hpos := hsz4.1
          rw [hneed] at hguard2 ⊢
          constructor <;> omega)
      (by intro q h
          have hqe := hqfact q h
          refine ⟨by omega, ?_, by rw [hmsz]; omega⟩
          rw [hneed]
          omega)
      (by intro x h
          have := hxfact x h
          omega)
    refine ⟨b.addr + headerSize, (alloc_found st b.addr (computeNeed 0)).2,
      ?_, ?_, computeNeed 0, ?_, ?_, ?_⟩
    · rw [allocator_allocate, list_allocate, heq]
    · have := hsz4.2.2.1
      omega
    · rw [hneed]
    · rw [hneed]
      omega
    · exact hal
  · have hguard2 : (getN st.mem b.addr).msize - computeNeed 0 < nodeSize :=
      Nat.lt_of_not_le hguard
    have hal := alloc_found_spec_whole st b.addr (computeNeed 0)
      heven hWb hguard2
      (by rw [hmsz, hneed]; exact hble)
      (by intro q h
          have := hqfact q h
          omega)
      (by intro x h
          have := hxfact x h
          omega)
    refine ⟨b.addr + headerSize, (alloc_found st b.addr (computeNeed 0)).2,
      ?_, ?_, b.bsize, ?_, ?_, ?_⟩
    · rw [allocator_allocate, list_allocate, heq]
    · have := hsz4.2.2.1
      omega
    · exact hble
    · rw [hmsz, hneed] at hguard2
      omega
    · rw [hal, hmsz]

/-- C10 witness: on a fresh 4096-byte region allocate(0) returns the
aligned payload address 32 and adds 32 bytes to the live-byte counter. -/
theorem c10_allocate_zero_witness :
    ∃ p st2,
      allocator_allocate 9 (init_allocator 0 4096) 0 = (some p, st2) ∧
        p % 16 = 0 ∧
        ∃ k, headerSize ≤ k ∧ k < headerSize + nodeSize ∧
          st2.allocated = add64 (init_allocator 0 4096).allocated k :=
  c10_allocate_zero (init_allocator 0 4096) 0 [⟨0, 4096, true⟩] 9
    (by decide) (by decide) ⟨⟨0, 4096, true⟩, by decide, by decide, by decide⟩

/-- C6 witness: on a fresh 4096-byte region a request of 10000 bytes needs
10048 bytes, more than the single free block provides, so allocate returns
null with the state unchanged. -/
theorem c6_allocate_fail_state_unchanged_witness :
    Inv (init_allocator 0 4096) 0 [⟨0, 4096, true⟩] = true ∧
      allocator_allocate 9 (init_allocator 0 4096) 10000 =
        (none, init_allocator 0 4096) :=
  ⟨by decide,
    c6_allocate_fail_state_unchanged (init_allocator 0 4096) 0 [⟨0, 4096, true⟩]
      10000 9 (by decide) (by decide) (by decide)⟩

end ZppAllocator
